import Mathlib

/-!
Verification of the line-oriented re-indentation engine of
`scripts/beautify_fragments.py` (FragmentariumWeb).

The Python source is shallowly embedded over `List Char`:

* `normalize_newlines`  — `text.replace("\r\n","\n").replace("\r","\n")`
* `strip_comments_for_braces` — the per-line lexical scanner
* `line_brace_stats`    — brace delta / leading close count per line
* `collapse_blank_lines`— blank-line collapse and trailing-blank trim
* `format_frag_text`    — the full formatting pass

Python strings are modelled as `List Char`; machine-independent `int`
values as `Int` with the explicit `max _ 0` clamps of the source.
-/

namespace Beautify

/-- The set of characters stripped by Python's argument-less `str.strip` /
`str.lstrip` (Unicode whitespace), as code points. -/
def pyWSCodes : List Nat :=
  [0x9, 0xa, 0xb, 0xc, 0xd, 0x1c, 0x1d, 0x1e, 0x1f, 0x20, 0x85, 0xa0,
   0x1680, 0x2000, 0x2001, 0x2002, 0x2003, 0x2004, 0x2005, 0x2006, 0x2007,
   0x2008, 0x2009, 0x200a, 0x2028, 0x2029, 0x202f, 0x205f, 0x3000]

/-- Python `str.isspace` on a single character. -/
def isPyWS (c : Char) : Bool := decide (c.toNat ∈ pyWSCodes)

/-- Membership in the two-character set `" \t"` used by `rstrip(" \t")`. -/
def isSpaceTab (c : Char) : Bool := decide (c = ' ' ∨ c = '\t')

/-- Python `line.rstrip(" \t")`. -/
def rstripST (l : List Char) : List Char := (l.reverse.dropWhile isSpaceTab).reverse

/-- Python `line.lstrip()` (strip leading whitespace). -/
def lstripPy (l : List Char) : List Char := l.dropWhile isPyWS

/-- Python `line.rstrip()` (strip trailing whitespace). -/
def rstripPy (l : List Char) : List Char := (l.reverse.dropWhile isPyWS).reverse

/-- Python `line.strip()` (strip both ends). -/
def stripPy (l : List Char) : List Char := rstripPy (lstripPy l)

/-- Python `pattern.isPrefixOf s`, i.e. `s.startswith(pattern)`. -/
def listStartsWith : List Char → List Char → Bool
  | [], _ => true
  | _ :: _, [] => false
  | p :: ps, c :: cs => if p = c then listStartsWith ps cs else false

/-- `text.replace("\r\n", "\n")` (leftmost, non-overlapping). -/
def replaceCRLF : List Char → List Char
  | [] => []
  | [c] => [c]
  | c :: d :: rest =>
    if c = '\r' ∧ d = '\n' then '\n' :: replaceCRLF rest
    else c :: replaceCRLF (d :: rest)

/-- `text.replace("\r", "\n")`. -/
def replaceCR (l : List Char) : List Char :=
  l.map (fun c => if c = '\r' then '\n' else c)

/-- `normalize_newlines` from the source: CRLF then lone CR become LF. -/
def normalize_newlines (text : List Char) : List Char :=
  replaceCR (replaceCRLF text)

/-- Python `text.split("\n")` (on the empty text this is `[""]`). -/
def splitNL : List Char → List (List Char)
  | [] => [[]]
  | c :: rest =>
    if c = '\n' then [] :: splitNL rest
    else
      match splitNL rest with
      | [] => [[c]]
      | l :: ls => (c :: l) :: ls

/-- Python `"\n".join(lines)`. -/
def joinNL : List (List Char) → List Char
  | [] => []
  | [l] => l
  | l :: l₂ :: ls => l ++ '\n' :: joinNL (l₂ :: ls)

/-- The character-scanning loop of `strip_comments_for_braces`.  The three
sub-states of the source loop are the parameters: `inBC` (inside a block
comment), `inStr` (the quote that opened the current string literal, if any)
and `esc` (the backslash-escape flag).  The one-character lookahead of the
source (`nxt`) appears as the second pattern element. -/
def scanAux : Bool → Option Char → Bool → List Char → List Char × Bool
  | inBC, _, _, [] => ([], inBC)
  | inBC, _, _, [c] =>
    if inBC then ([], true) else ([c], false)
  | inBC, inStr, esc, c :: nxt :: rest =>
    if inBC then
      if c = '*' ∧ nxt = '/' then scanAux false inStr esc rest
      else scanAux true inStr esc (nxt :: rest)
    else
      match inStr with
      | some q =>
        let p :=
          if esc then scanAux false (some q) false (nxt :: rest)
          else if c = '\\' then scanAux false (some q) true (nxt :: rest)
          else if c = q then scanAux false none false (nxt :: rest)
          else scanAux false (some q) false (nxt :: rest)
        (c :: p.1, p.2)
      | none =>
        if c = '\x27' ∨ c = '\x22' then
          let p := scanAux false (some c) esc (nxt :: rest)
          (c :: p.1, p.2)
        else if c = '/' ∧ nxt = '/' then ([], false)
        else if c = '/' ∧ nxt = '*' then scanAux true none esc rest
        else
          let p := scanAux false none esc (nxt :: rest)
          (c :: p.1, p.2)

/-- `strip_comments_for_braces(line, in_block_comment)`: the code projection
of a line (comments removed, strings preserved) and the carried
block-comment flag. -/
def strip_comments_for_braces (line : List Char) (in_block_comment : Bool) :
    List Char × Bool :=
  scanAux in_block_comment none false line

/-- `line_brace_stats(line, in_block_comment)`: net brace delta, leading
close-brace count of the left-stripped projection, and the carried
block-comment flag. -/
def line_brace_stats (line : List Char) (in_block_comment : Bool) :
    Int × Nat × Bool :=
  let r := strip_comments_for_braces line in_block_comment
  ((r.1.count '\x7b' : Int) - (r.1.count '\x7d' : Int),
   ((lstripPy r.1).takeWhile (fun c => decide (c = '\x7d'))).length,
   r.2)

/-- The forward pass of `collapse_blank_lines`: drop a blank line that
immediately follows another blank (`last_blank` starts `True`). -/
def collapseAux : Bool → List (List Char) → List (List Char)
  | _, [] => []
  | lastBlank, raw :: rest =>
    if raw = [] then
      if lastBlank then collapseAux true rest
      else [] :: collapseAux true rest
    else raw :: collapseAux false rest

/-- The trailing `while out and out[-1] == "": out.pop()` loop. -/
def dropTrailingBlanks (l : List (List Char)) : List (List Char) :=
  (l.reverse.dropWhile List.isEmpty).reverse

/-- `collapse_blank_lines` from the source. -/
def collapse_blank_lines (lines : List (List Char)) : List (List Char) :=
  dropTrailingBlanks (collapseAux true lines)

/-- `INDENT = "  "`. -/
def INDENT : List Char := [' ', ' ']

/-- Python `s * n` for a string `s`. -/
def strMul (l : List Char) (n : Nat) : List Char :=
  (List.replicate n l).flatten

/-- The three loop variables of `format_frag_text`. -/
structure FmtState where
  indent_level : Int
  in_preset : Bool
  in_block_comment : Bool
  deriving DecidableEq

/-- Initial state of a formatting run. -/
def initState : FmtState := ⟨0, false, false⟩

/-- The body of the `for original in lines` loop of `format_frag_text`:
returns the emitted line and the updated loop state. -/
def processLine (st : FmtState) (original : List Char) : List Char × FmtState :=
  let line := rstripST original
  let stripped := stripPy line
  if stripped = [] then ([], st)
  else
    let lower := stripped.map Char.toLower
    if listStartsWith ("#".toList) stripped then
      let in_preset' :=
        if listStartsWith ("#preset ".toList) lower then true
        else if lower = "#endpreset".toList then false
        else st.in_preset
      (stripped, ⟨st.indent_level, in_preset', st.in_block_comment⟩)
    else if st.in_preset then
      (lstripPy line, st)
    else
      let r := line_brace_stats line st.in_block_comment
      let effective_indent : Int := max (st.indent_level - (r.2.1 : Int)) 0
      (strMul INDENT effective_indent.toNat ++ lstripPy line,
       ⟨max (st.indent_level + r.1) 0, st.in_preset, r.2.2⟩)

/-- The whole `for` loop of `format_frag_text`, threading the state. -/
def processLines : FmtState → List (List Char) → List (List Char) × FmtState
  | st, [] => ([], st)
  | st, l :: ls =>
    let r := processLine st l
    let rest := processLines r.2 ls
    (r.1 :: rest.1, rest.2)

/-- `format_frag_text(text)` from the source. -/
def format_frag_text (text : List Char) : List Char :=
  let t := normalize_newlines text
  let lines := splitNL t
  let out := (processLines initState lines).1
  let out₂ := collapse_blank_lines out
  joinNL out₂ ++ ['\n']

/-- The collapsed line list underlying the output of `format_frag_text`. -/
def outputLines (text : List Char) : List (List Char) :=
  collapse_blank_lines (processLines initState (splitNL (normalize_newlines text))).1


/-! ### Generic list lemmas -/

theorem dropWhile_dropWhile (p : α → Bool) (l : List α) :
    (l.dropWhile p).dropWhile p = l.dropWhile p := by
  induction l with
  | nil => rfl
  | cons a l ih =>
    by_cases h : p a = true
    · simp [List.dropWhile_cons, h, ih]
    · simp only [Bool.not_eq_true] at h
      simp [List.dropWhile_cons, h]

theorem dropWhile_append_all {p : α → Bool} {w : List α}
    (h : ∀ c ∈ w, p c = true) (y : List α) :
    (w ++ y).dropWhile p = y.dropWhile p := by
  induction w with
  | nil => rfl
  | cons a w ih =>
    have ha : p a = true := h a (by simp)
    simp only [List.cons_append, List.dropWhile_cons, ha, if_true]
    exact ih (fun c hc => h c (by simp [hc]))

theorem dropWhile_head_false {p : α → Bool} {l t : List α} {c : α}
    (h : l.dropWhile p = c :: t) : p c = false := by
  induction l with
  | nil => simp at h
  | cons a l ih =>
    by_cases ha : p a = true
    · rw [List.dropWhile_cons, if_pos ha] at h
      exact ih h
    · simp only [Bool.not_eq_true] at ha
      rw [List.dropWhile_cons, ha] at h
      simp only [Bool.false_eq_true, if_false, List.cons.injEq] at h
      rw [← h.1]; exact ha

theorem dropWhile_eq_self_of_head {p : α → Bool} {l : List α}
    (h : ∀ c, l.head? = some c → p c = false) : l.dropWhile p = l := by
  cases l with
  | nil => rfl
  | cons a l =>
    have := h a rfl
    simp [List.dropWhile_cons, this]

theorem exists_takeWhile_decomp (p : α → Bool) (l : List α) :
    ∃ w, l = w ++ l.dropWhile p ∧ ∀ c ∈ w, p c = true := by
  refine ⟨l.takeWhile p, (List.takeWhile_append_dropWhile p l).symm, ?_⟩
  intro c hc
  exact List.mem_takeWhile_imp hc

theorem head?_append_left {x y : List α} (hx : x ≠ []) :
    (x ++ y).head? = x.head? := by
  cases x with
  | nil => exact absurd rfl hx
  | cons a t => rfl

theorem getLast?_append_right {x y : List α} (hy : y ≠ []) :
    (x ++ y).getLast? = y.getLast? := by
  rw [← List.head?_reverse, ← List.head?_reverse, List.reverse_append]
  exact head?_append_left (by simpa using hy)

/-! ### Whitespace character facts -/

theorem isPyWS_ne {c d : Char} (h : isPyWS c = true) (hd : isPyWS d = false) :
    c ≠ d := by
  intro he
  rw [he, hd] at h
  exact Bool.noConfusion h

theorem isPyWS_of_isSpaceTab {c : Char} (h : isSpaceTab c = true) :
    isPyWS c = true := by
  have : c = ' ' ∨ c = '\t' := of_decide_eq_true h
  rcases this with rfl | rfl <;> decide

/-! ### Strip-function lemmas -/

theorem rstripPy_nil : rstripPy [] = [] := rfl

theorem rstripST_nil : rstripST [] = [] := rfl

theorem mem_lstripPy {c : Char} {l : List Char} (h : c ∈ lstripPy l) : c ∈ l := by
  obtain ⟨w, hw, -⟩ := exists_takeWhile_decomp isPyWS l
  rw [hw]
  exact List.mem_append_right _ h

theorem mem_rstripPy {c : Char} {l : List Char} (h : c ∈ rstripPy l) : c ∈ l := by
  unfold rstripPy at h
  rw [List.mem_reverse] at h
  have := mem_lstripPy (l := l.reverse) h
  rwa [List.mem_reverse] at this

theorem mem_rstripST {c : Char} {l : List Char} (h : c ∈ rstripST l) : c ∈ l := by
  unfold rstripST at h
  rw [List.mem_reverse] at h
  obtain ⟨w, hw, -⟩ := exists_takeWhile_decomp isSpaceTab l.reverse
  have : c ∈ l.reverse := by rw [hw]; exact List.mem_append_right _ h
  rwa [List.mem_reverse] at this

theorem mem_stripPy {c : Char} {l : List Char} (h : c ∈ stripPy l) : c ∈ l :=
  mem_lstripPy (mem_rstripPy h)

theorem lstripPy_idem (l : List Char) : lstripPy (lstripPy l) = lstripPy l :=
  dropWhile_dropWhile isPyWS l

theorem rstripPy_idem (l : List Char) : rstripPy (rstripPy l) = rstripPy l := by
  unfold rstripPy
  rw [List.reverse_reverse, dropWhile_dropWhile]

theorem lstripPy_append_ws {w : List Char} (h : ∀ c ∈ w, isPyWS c = true)
    (y : List Char) : lstripPy (w ++ y) = lstripPy y :=
  dropWhile_append_all h y

theorem lstripPy_head_false {l t : List Char} {c : Char}
    (h : lstripPy l = c :: t) : isPyWS c = false :=
  dropWhile_head_false h

/-- Decomposition of `rstripPy`: the original list is the stripped core
followed by trailing whitespace. -/
theorem rstripPy_decomp (l : List Char) :
    ∃ w, l = rstripPy l ++ w ∧ ∀ c ∈ w, isPyWS c = true := by
  obtain ⟨w, hw, hws⟩ := exists_takeWhile_decomp isPyWS l.reverse
  refine ⟨w.reverse, ?_, ?_⟩
  · conv_lhs => rw [← l.reverse_reverse, hw]
    rw [List.reverse_append]
    rfl
  · intro c hc
    exact hws c (List.mem_reverse.mp hc)

theorem rstripST_decomp (l : List Char) :
    ∃ w, l = rstripST l ++ w ∧ ∀ c ∈ w, isSpaceTab c = true := by
  obtain ⟨w, hw, hws⟩ := exists_takeWhile_decomp isSpaceTab l.reverse
  refine ⟨w.reverse, ?_, ?_⟩
  · conv_lhs => rw [← l.reverse_reverse, hw]
    rw [List.reverse_append]
    rfl
  · intro c hc
    exact hws c (List.mem_reverse.mp hc)

/-- The last character of an `rstripPy` result is not whitespace. -/
theorem rstripPy_getLast {l : List Char} {c : Char}
    (h : (rstripPy l).getLast? = some c) : isPyWS c = false := by
  rw [← List.head?_reverse] at h
  unfold rstripPy at h
  rw [List.reverse_reverse] at h
  cases hd : l.reverse.dropWhile isPyWS with
  | nil => rw [hd] at h; exact absurd h (by simp)
  | cons a t =>
    rw [hd] at h
    have := dropWhile_head_false hd
    simp only [List.head?_cons, Option.some.injEq] at h
    rwa [← h]

theorem rstripST_getLast {l : List Char} {c : Char}
    (h : (rstripST l).getLast? = some c) : isSpaceTab c = false := by
  rw [← List.head?_reverse] at h
  unfold rstripST at h
  rw [List.reverse_reverse] at h
  cases hd : l.reverse.dropWhile isSpaceTab with
  | nil => rw [hd] at h; exact absurd h (by simp)
  | cons a t =>
    rw [hd] at h
    have := dropWhile_head_false hd
    simp only [List.head?_cons, Option.some.injEq] at h
    rwa [← h]

/-- `rstripST` is the identity on a list whose last element is not a
space or tab. -/
theorem rstripST_eq_self {l : List Char}
    (h : ∀ c, l.getLast? = some c → isSpaceTab c = false) : rstripST l = l := by
  unfold rstripST
  rw [dropWhile_eq_self_of_head, List.reverse_reverse]
  intro c hc
  exact h c (by rwa [← List.head?_reverse])

theorem rstripPy_eq_self {l : List Char}
    (h : ∀ c, l.getLast? = some c → isPyWS c = false) : rstripPy l = l := by
  unfold rstripPy
  rw [dropWhile_eq_self_of_head, List.reverse_reverse]
  intro c hc
  exact h c (by rwa [← List.head?_reverse])

theorem lstripPy_of_ne_nil {l : List Char} (h : lstripPy l ≠ []) :
    (lstripPy l).head? = some (lstripPy l).head! ∧
      isPyWS ((lstripPy l).head!) = false := by
  cases hd : lstripPy l with
  | nil => exact absurd hd h
  | cons a t =>
    refine ⟨rfl, ?_⟩
    have := dropWhile_head_false (p := isPyWS) (l := l) hd
    simpa using this

/-! ### Strip composites -/

theorem lstripPy_rstripPy {y : List Char}
    (h : ∀ c, y.head? = some c → isPyWS c = false) :
    lstripPy (rstripPy y) = rstripPy y := by
  cases hr : rstripPy y with
  | nil => rfl
  | cons a t =>
    rw [← hr]
    apply dropWhile_eq_self_of_head
    intro c hc
    apply h
    obtain ⟨w, hw, -⟩ := rstripPy_decomp y
    rw [hw, head?_append_left (by rw [hr]; exact List.cons_ne_nil a t)]
    exact hc

theorem lstripPy_stripPy (l : List Char) : lstripPy (stripPy l) = stripPy l := by
  unfold stripPy
  apply lstripPy_rstripPy
  intro c hc
  cases hd : lstripPy l with
  | nil => rw [hd] at hc; exact absurd hc (by simp [lstripPy])
  | cons a t =>
    rw [hd] at hc
    simp only [List.head?_cons, Option.some.injEq] at hc
    have := dropWhile_head_false (p := isPyWS) (l := l) hd
    rwa [← hc]

theorem stripPy_lstripPy (l : List Char) : stripPy (lstripPy l) = stripPy l := by
  unfold stripPy
  rw [lstripPy_idem]

theorem stripPy_idem (l : List Char) : stripPy (stripPy l) = stripPy l := by
  conv_lhs => rw [stripPy, lstripPy_stripPy]
  unfold stripPy
  exact rstripPy_idem _

theorem rstripST_stripPy (l : List Char) : rstripST (stripPy l) = stripPy l := by
  apply rstripST_eq_self
  intro c hc
  have hws : isPyWS c = false := rstripPy_getLast hc
  cases hst : isSpaceTab c with
  | false => rfl
  | true => rw [isPyWS_of_isSpaceTab hst] at hws; exact Bool.noConfusion hws

theorem stripPy_append_ws {w : List Char} (hw : ∀ c ∈ w, isPyWS c = true)
    (y : List Char) : stripPy (w ++ y) = stripPy y := by
  unfold stripPy
  rw [lstripPy_append_ws hw]

theorem lstripPy_ne_nil {l : List Char} (h : stripPy l ≠ []) :
    lstripPy l ≠ [] := by
  intro he
  apply h
  unfold stripPy
  rw [he, rstripPy_nil]

/-- The non-whitespace core of a line: `lstripPy` keeps the tail of the
list, so its last element is the last element of the original. -/
theorem getLast?_lstripPy {l : List Char} (h : lstripPy l ≠ []) :
    (lstripPy l).getLast? = l.getLast? := by
  obtain ⟨w, hw, -⟩ := exists_takeWhile_decomp isPyWS l
  conv_rhs => rw [hw]
  exact (getLast?_append_right h).symm

/-! ### Scanner facts about whitespace prefixes -/

theorem not_quote_of_pyWS {c : Char} (hc : isPyWS c = true) :
    ¬(c = '\x27' ∨ c = '\x22') := by
  rintro (rfl | rfl) <;> exact Bool.noConfusion hc

theorem ne_slash_of_pyWS {c : Char} (hc : isPyWS c = true) : c ≠ '/' :=
  isPyWS_ne hc (by decide)

theorem ne_star_of_pyWS {c : Char} (hc : isPyWS c = true) : c ≠ '*' :=
  isPyWS_ne hc (by decide)

theorem scanAux_code_ws {w : List Char} (hw : ∀ c ∈ w, isPyWS c = true)
    (y : List Char) (esc : Bool) :
    scanAux false none esc (w ++ y) =
      (w ++ (scanAux false none esc y).1, (scanAux false none esc y).2) := by
  induction w with
  | nil => simp
  | cons c w ih =>
    have hc : isPyWS c = true := hw c (by simp)
    have ih' := ih (fun d hd => hw d (by simp [hd]))
    cases hwy : w ++ y with
    | nil =>
      obtain ⟨rfl, rfl⟩ := List.append_eq_nil.mp hwy
      simp [scanAux]
    | cons d r =>
      rw [List.cons_append, hwy]
      simp only [scanAux]
      rw [if_neg (by simp), if_neg (not_quote_of_pyWS hc),
        if_neg (fun h => ne_slash_of_pyWS hc h.1),
        if_neg (fun h => ne_slash_of_pyWS hc h.1)]
      rw [← hwy, ih']
      simp

theorem scanAux_bc_ws {w : List Char} (hw : ∀ c ∈ w, isPyWS c = true)
    (y : List Char) (inStr : Option Char) (esc : Bool) :
    scanAux true inStr esc (w ++ y) = scanAux true inStr esc y := by
  induction w with
  | nil => simp
  | cons c w ih =>
    have hc : isPyWS c = true := hw c (by simp)
    have ih' := ih (fun d hd => hw d (by simp [hd]))
    cases hwy : w ++ y with
    | nil =>
      obtain ⟨rfl, rfl⟩ := List.append_eq_nil.mp hwy
      simp [scanAux]
    | cons d r =>
      rw [List.cons_append, hwy]
      simp only [scanAux]
      rw [if_pos trivial, if_neg (fun h => ne_star_of_pyWS hc h.1), ← hwy, ih']

theorem count_eq_zero_of_ws {w : List Char} (hw : ∀ c ∈ w, isPyWS c = true)
    {d : Char} (hd : isPyWS d = false) : w.count d = 0 := by
  rw [List.count_eq_zero]
  intro hmem
  rw [hw d hmem] at hd
  exact Bool.noConfusion hd

theorem line_brace_stats_ws {w : List Char} (hw : ∀ c ∈ w, isPyWS c = true)
    (y : List Char) (b : Bool) :
    line_brace_stats (w ++ y) b = line_brace_stats y b := by
  cases b with
  | true =>
    unfold line_brace_stats strip_comments_for_braces
    rw [scanAux_bc_ws hw]
  | false =>
    unfold line_brace_stats strip_comments_for_braces
    rw [scanAux_code_ws hw]
    simp only
    rw [List.count_append, List.count_append,
      count_eq_zero_of_ws hw (d := '\x7b') (by decide),
      count_eq_zero_of_ws hw (d := '\x7d') (by decide),
      lstripPy_append_ws hw]
    simp

/-! ### Branch equations for `processLine` -/

/-- The preset-flag update performed by the directive branch. -/
def presetUpd (stripped : List Char) (cur : Bool) : Bool :=
  if listStartsWith ("#preset ".toList) (stripped.map Char.toLower) then true
  else if stripped.map Char.toLower = "#endpreset".toList then false
  else cur

theorem bool_ne_true {b : Bool} (h : b = false) : ¬b = true := by
  rw [h]; exact Bool.noConfusion

theorem processLine_blank {st : FmtState} {l : List Char}
    (h : stripPy (rstripST l) = []) : processLine st l = ([], st) := by
  simp only [processLine]
  rw [if_pos h]

theorem processLine_directive {st : FmtState} {l : List Char}
    (h : stripPy (rstripST l) ≠ [])
    (hd : listStartsWith ("#".toList) (stripPy (rstripST l)) = true) :
    processLine st l = (stripPy (rstripST l),
      ⟨st.indent_level, presetUpd (stripPy (rstripST l)) st.in_preset,
        st.in_block_comment⟩) := by
  simp only [processLine, presetUpd]
  rw [if_neg h, if_pos hd]

theorem processLine_preset {st : FmtState} {l : List Char}
    (h : stripPy (rstripST l) ≠ [])
    (hd : listStartsWith ("#".toList) (stripPy (rstripST l)) = false)
    (hp : st.in_preset = true) :
    processLine st l = (lstripPy (rstripST l), st) := by
  simp only [processLine]
  rw [if_neg h, if_neg (bool_ne_true hd), if_pos hp]

theorem processLine_code {st : FmtState} {l : List Char}
    (h : stripPy (rstripST l) ≠ [])
    (hd : listStartsWith ("#".toList) (stripPy (rstripST l)) = false)
    (hp : st.in_preset = false) :
    processLine st l =
      (strMul INDENT
          (max (st.indent_level -
            ((line_brace_stats (rstripST l) st.in_block_comment).2.1 : Int)) 0).toNat
        ++ lstripPy (rstripST l),
       ⟨max (st.indent_level + (line_brace_stats (rstripST l) st.in_block_comment).1) 0,
        st.in_preset,
        (line_brace_stats (rstripST l) st.in_block_comment).2.2⟩) := by
  simp only [processLine]
  rw [if_neg h, if_neg (bool_ne_true hd), if_neg (bool_ne_true hp)]

/-! ### Reprocessing facts -/

theorem rstripST_core (l : List Char) :
    rstripST (lstripPy (rstripST l)) = lstripPy (rstripST l) := by
  by_cases hc : lstripPy (rstripST l) = []
  · rw [hc]; rfl
  · apply rstripST_eq_self
    intro c hcl
    rw [getLast?_lstripPy hc] at hcl
    exact rstripST_getLast hcl

theorem mem_strMul_INDENT {c : Char} {n : Nat} (h : c ∈ strMul INDENT n) :
    c = ' ' := by
  unfold strMul INDENT at h
  rw [List.mem_flatten] at h
  obtain ⟨m, hm, hcm⟩ := h
  rw [List.eq_of_mem_replicate hm] at hcm
  simpa using hcm

theorem strMul_INDENT_ws {n : Nat} : ∀ c ∈ strMul INDENT n, isPyWS c = true := by
  intro c hc
  rw [mem_strMul_INDENT hc]
  decide

theorem line_brace_stats_lstrip (x : List Char) (b : Bool) :
    line_brace_stats (lstripPy x) b = line_brace_stats x b := by
  obtain ⟨w, hw, hws⟩ := exists_takeWhile_decomp isPyWS x
  conv_rhs => rw [hw]
  rw [line_brace_stats_ws hws]
  rfl

/-- Per-line idempotence: re-running the loop body on an emitted line from
the same incoming state reproduces the line and the same outgoing state. -/
theorem processLine_idem (st : FmtState) (l : List Char) :
    processLine st (processLine st l).1 = processLine st l := by
  by_cases hb : stripPy (rstripST l) = []
  · rw [processLine_blank hb]
    exact processLine_blank (by rfl)
  · by_cases hd : listStartsWith ("#".toList) (stripPy (rstripST l)) = true
    · -- directive line
      rw [processLine_directive hb hd]
      have hs : stripPy (rstripST (stripPy (rstripST l))) = stripPy (rstripST l) := by
        rw [rstripST_stripPy, stripPy_idem]
      rw [processLine_directive (l := stripPy (rstripST l)) (by rw [hs]; exact hb)
        (by rw [hs]; exact hd)]
      rw [hs]
    · have hd' : listStartsWith ("#".toList) (stripPy (rstripST l)) = false :=
        Bool.eq_false_iff.mpr hd
      by_cases hp : st.in_preset = true
      · -- preset passthrough line
        rw [processLine_preset hb hd' hp]
        have hcore : stripPy (rstripST (lstripPy (rstripST l))) = stripPy (rstripST l) := by
          rw [rstripST_core, stripPy_lstripPy]
        rw [processLine_preset (l := lstripPy (rstripST l)) (by rw [hcore]; exact hb)
          (by rw [hcore]; exact hd') hp]
        rw [rstripST_core, lstripPy_idem]
      · have hp' : st.in_preset = false := Bool.eq_false_iff.mpr hp
        -- ordinary code line
        rw [processLine_code hb hd' hp']
        have hcne : lstripPy (rstripST l) ≠ [] := lstripPy_ne_nil hb
        set core := lstripPy (rstripST l) with hcoredef
        set ind := strMul INDENT
          (max (st.indent_level -
            ((line_brace_stats (rstripST l) st.in_block_comment).2.1 : Int)) 0).toNat
          with hinddef
        have hindws : ∀ c ∈ ind, isPyWS c = true := by
          rw [hinddef]; exact strMul_INDENT_ws
        have hout : rstripST (ind ++ core) = ind ++ core := by
          apply rstripST_eq_self
          intro c hcl
          rw [getLast?_append_right hcne, hcoredef, getLast?_lstripPy hcne] at hcl
          exact rstripST_getLast hcl
        have hstripout : stripPy (rstripST (ind ++ core)) = stripPy (rstripST l) := by
          rw [hout, stripPy_append_ws hindws, hcoredef, stripPy_lstripPy]
        have hstatsout : line_brace_stats (rstripST (ind ++ core)) st.in_block_comment
            = line_brace_stats (rstripST l) st.in_block_comment := by
          rw [hout, line_brace_stats_ws hindws, hcoredef, line_brace_stats_lstrip]
        rw [processLine_code (l := ind ++ core) (by rw [hstripout]; exact hb)
          (by rw [hstripout]; exact hd') hp']
        rw [hstatsout, hout, lstripPy_append_ws hindws, hcoredef, lstripPy_idem]

/-! ### The line loop as a whole -/

theorem processLine_nil (st : FmtState) : processLine st [] = ([], st) :=
  processLine_blank rfl

theorem processLines_nil (st : FmtState) : processLines st [] = ([], st) := rfl

theorem processLines_cons (st : FmtState) (l : List Char) (ls : List (List Char)) :
    processLines st (l :: ls) =
      ((processLine st l).1 :: (processLines (processLine st l).2 ls).1,
       (processLines (processLine st l).2 ls).2) := rfl

/-- The emitted line list is a fixed point of the loop (from the same
initial state). -/
theorem processLines_fix (st : FmtState) (ls : List (List Char)) :
    processLines st (processLines st ls).1 = processLines st ls := by
  induction ls generalizing st with
  | nil => rfl
  | cons l ls ih =>
    rw [processLines_cons st l ls, processLines_cons st (processLine st l).1,
      processLine_idem st l, ih (processLine st l).2]

theorem processLines_append (st : FmtState) (as bs : List (List Char)) :
    processLines st (as ++ bs) =
      ((processLines st as).1 ++ (processLines (processLines st as).2 bs).1,
       (processLines (processLines st as).2 bs).2) := by
  induction as generalizing st with
  | nil => simp [processLines_nil]
  | cons a as ih =>
    rw [List.cons_append, processLines_cons, ih, processLines_cons]
    rfl

/-- `os'` is `os` with some blank lines deleted. -/
inductive DelBlanks : List (List Char) → List (List Char) → Prop
  | nil : DelBlanks [] []
  | del {os os'} : DelBlanks os os' → DelBlanks ([] :: os) os'
  | keep {os os'} (x) : DelBlanks os os' → DelBlanks (x :: os) (x :: os')

theorem DelBlanks.mem {os os' : List (List Char)} (h : DelBlanks os os') :
    ∀ x ∈ os', x ∈ os := by
  induction h with
  | nil => intro x hx; exact hx
  | del _ ih => intro x hx; exact List.mem_cons_of_mem _ (ih x hx)
  | keep y _ ih =>
    intro x hx
    rcases List.mem_cons.mp hx with rfl | hx
    · exact List.mem_cons_self _ _
    · exact List.mem_cons_of_mem _ (ih x hx)

/-- Deleting blank lines from a fixed point of the loop keeps it a fixed
point with the same final state (blank lines do not touch the state). -/
theorem processLines_delBlanks {os os' : List (List Char)}
    (h : DelBlanks os os') :
    ∀ (st s : FmtState), processLines st os = (os, s) →
      processLines st os' = (os', s) := by
  induction h with
  | nil => intro st s h'; exact h'
  | del hdel ih =>
    intro st s h'
    rw [processLines_cons, processLine_nil] at h'
    simp only [Prod.mk.injEq, List.cons.injEq] at h'
    obtain ⟨⟨-, h1⟩, h2⟩ := h'
    exact ih st s (Prod.ext h1 h2)
  | keep x hdel ih =>
    intro st s h'
    rw [processLines_cons] at h'
    simp only [Prod.mk.injEq, List.cons.injEq] at h'
    obtain ⟨⟨hx, h1⟩, h2⟩ := h'
    rw [processLines_cons]
    have hfix := ih (processLine st x).2 s (Prod.ext h1 h2)
    rw [hx, hfix]

/-! ### Collapse of blank lines -/

/-- `noCollapse b l`: walking `l` with previous-line-blank flag `b`, no
blank line immediately follows another blank (with `b = true` this also
rules out a leading blank). -/
def noCollapse : Bool → List (List Char) → Bool
  | _, [] => true
  | b, x :: xs => (!(x.isEmpty && b)) && noCollapse x.isEmpty xs
theorem collapseAux_cons_blank_true (xs : List (List Char)) :
    collapseAux true ([] :: xs) = collapseAux true xs := by
  simp [collapseAux]

theorem collapseAux_cons_blank_false (xs : List (List Char)) :
    collapseAux false ([] :: xs) = [] :: collapseAux true xs := by
  simp [collapseAux]

theorem collapseAux_cons_ne {x : List Char} (hx : x ≠ []) (b : Bool)
    (xs : List (List Char)) :
    collapseAux b (x :: xs) = x :: collapseAux false xs := by
  simp [collapseAux, hx]

theorem delBlanks_collapseAux : ∀ (b : Bool) (l : List (List Char)),
    DelBlanks l (collapseAux b l)
  | _, [] => DelBlanks.nil
  | b, x :: xs => by
    by_cases hx : x = []
    · subst hx
      cases b with
      | true =>
        rw [collapseAux_cons_blank_true]
        exact DelBlanks.del (delBlanks_collapseAux true xs)
      | false =>
        rw [collapseAux_cons_blank_false]
        exact DelBlanks.keep [] (delBlanks_collapseAux true xs)
    · rw [collapseAux_cons_ne hx]
      exact DelBlanks.keep x (delBlanks_collapseAux false xs)

theorem delBlanks_append_blanks (d : List (List Char)) :
    ∀ w, (∀ x ∈ w, x = ([] : List Char)) → DelBlanks (d ++ w) d := by
  induction d with
  | nil =>
    intro w hw
    induction w with
    | nil => exact DelBlanks.nil
    | cons x xs ih =>
      have hx := hw x (by simp)
      subst hx
      exact DelBlanks.del (ih (fun y hy => hw y (by simp [hy])))
  | cons a d ih =>
    intro w hw
    exact DelBlanks.keep a (ih w hw)

theorem dropTrailingBlanks_decomp (l : List (List Char)) :
    ∃ w, l = dropTrailingBlanks l ++ w ∧ ∀ x ∈ w, x = ([] : List Char) := by
  obtain ⟨w, hw, hws⟩ := exists_takeWhile_decomp List.isEmpty l.reverse
  refine ⟨w.reverse, ?_, ?_⟩
  · conv_lhs => rw [← l.reverse_reverse, hw]
    rw [List.reverse_append]
    rfl
  · intro x hx
    have := hws x (List.mem_reverse.mp hx)
    exact List.isEmpty_iff.mp this

theorem delBlanks_dropTrailing (l : List (List Char)) :
    DelBlanks l (dropTrailingBlanks l) := by
  obtain ⟨w, hw, hws⟩ := dropTrailingBlanks_decomp l
  have := delBlanks_append_blanks (dropTrailingBlanks l) w hws
  rwa [← hw] at this

theorem noCollapse_cons_ne {x : List Char} (hx : x ≠ []) (b : Bool)
    (xs : List (List Char)) :
    noCollapse b (x :: xs) = noCollapse false xs := by
  have hne : x.isEmpty = false := by
    cases x with
    | nil => exact absurd rfl hx
    | cons a t => rfl
  simp [noCollapse, hne]

theorem noCollapse_collapseAux : ∀ (b : Bool) (l : List (List Char)),
    noCollapse b (collapseAux b l) = true
  | _, [] => rfl
  | b, x :: xs => by
    by_cases hx : x = []
    · subst hx
      cases b with
      | true =>
        rw [collapseAux_cons_blank_true]
        exact noCollapse_collapseAux true xs
      | false =>
        rw [collapseAux_cons_blank_false]
        show ((!(List.isEmpty ([] : List Char) && false))
          && noCollapse (List.isEmpty ([] : List Char)) (collapseAux true xs)) = true
        simp only [List.isEmpty_nil, Bool.and_false, Bool.not_false, Bool.true_and]
        exact noCollapse_collapseAux true xs
    · rw [collapseAux_cons_ne hx, noCollapse_cons_ne hx]
      exact noCollapse_collapseAux false xs

theorem collapseAux_of_noCollapse : ∀ (b : Bool) (l : List (List Char)),
    noCollapse b l = true → collapseAux b l = l
  | _, [], _ => rfl
  | b, x :: xs, h => by
    by_cases hx : x = []
    · subst hx
      have h' : ((!(List.isEmpty ([] : List Char) && b))
          && noCollapse (List.isEmpty ([] : List Char)) xs) = true := h
      simp only [List.isEmpty_nil, Bool.true_and, Bool.and_eq_true,
        Bool.not_eq_true'] at h'
      obtain ⟨h1, h2⟩ := h'
      subst h1
      rw [collapseAux_cons_blank_false, collapseAux_of_noCollapse true xs h2]
    · rw [noCollapse_cons_ne hx] at h
      rw [collapseAux_cons_ne hx, collapseAux_of_noCollapse false xs h]

theorem noCollapse_append_left : ∀ (b : Bool) (l₁ l₂ : List (List Char)),
    noCollapse b (l₁ ++ l₂) = true → noCollapse b l₁ = true
  | _, [], _, _ => rfl
  | b, x :: l₁, l₂, h => by
    rw [List.cons_append] at h
    have h' : ((!(x.isEmpty && b)) && noCollapse x.isEmpty (l₁ ++ l₂)) = true := h
    rw [Bool.and_eq_true] at h'
    show ((!(x.isEmpty && b)) && noCollapse x.isEmpty l₁) = true
    rw [Bool.and_eq_true]
    exact ⟨h'.1, noCollapse_append_left _ l₁ l₂ h'.2⟩

/-- The `last_blank` flag after the forward pass over `xs`. -/
def lastBlankAfter (b : Bool) (xs : List (List Char)) : Bool :=
  xs.foldl (fun _ x => x.isEmpty) b

theorem lastBlankAfter_cons (b : Bool) (x : List Char) (xs : List (List Char)) :
    lastBlankAfter b (x :: xs) = lastBlankAfter x.isEmpty xs := rfl

theorem collapseAux_append : ∀ (b : Bool) (xs ys : List (List Char)),
    collapseAux b (xs ++ ys) =
      collapseAux b xs ++ collapseAux (lastBlankAfter b xs) ys
  | _, [], _ => rfl
  | b, x :: xs, ys => by
    rw [List.cons_append, lastBlankAfter_cons]
    by_cases hx : x = []
    · subst hx
      simp only [List.isEmpty_nil]
      cases b with
      | true =>
        rw [collapseAux_cons_blank_true, collapseAux_cons_blank_true]
        exact collapseAux_append true xs ys
      | false =>
        rw [collapseAux_cons_blank_false, collapseAux_cons_blank_false,
          collapseAux_append true xs ys, List.cons_append]
    · have hne : x.isEmpty = false := by
        cases x with
        | nil => exact absurd rfl hx
        | cons a t => rfl
      rw [hne, collapseAux_cons_ne hx, collapseAux_cons_ne hx,
        collapseAux_append false xs ys, List.cons_append]

theorem dropTrailingBlanks_append_blank (l : List (List Char)) :
    dropTrailingBlanks (l ++ [[]]) = dropTrailingBlanks l := by
  unfold dropTrailingBlanks
  rw [List.reverse_append]
  rfl

theorem dropTrailingBlanks_idem (l : List (List Char)) :
    dropTrailingBlanks (dropTrailingBlanks l) = dropTrailingBlanks l := by
  unfold dropTrailingBlanks
  rw [List.reverse_reverse, dropWhile_dropWhile]

theorem noCollapse_collapse (out : List (List Char)) :
    noCollapse true (collapse_blank_lines out) = true := by
  obtain ⟨w, hw, -⟩ := dropTrailingBlanks_decomp (collapseAux true out)
  have h := noCollapse_collapseAux true out
  rw [hw] at h
  exact noCollapse_append_left true _ w h

theorem dropTrailing_collapse (out : List (List Char)) :
    dropTrailingBlanks (collapse_blank_lines out) = collapse_blank_lines out := by
  unfold collapse_blank_lines
  exact dropTrailingBlanks_idem _

/-- Collapsing a list that is already collapse-normal, with one blank line
appended, gives the list back. -/
theorem collapse_of_collapsed {R : List (List Char)}
    (hnc : noCollapse true R = true) (hdt : dropTrailingBlanks R = R) :
    collapse_blank_lines (R ++ [[]]) = R := by
  unfold collapse_blank_lines
  rw [collapseAux_append true _ [[]], collapseAux_of_noCollapse true _ hnc]
  have e1 : collapseAux true [[]] = ([] : List (List Char)) := rfl
  have e2 : collapseAux false [[]] = [[]] := rfl
  cases lastBlankAfter true R with
  | true => rw [e1, List.append_nil, hdt]
  | false => rw [e2, dropTrailingBlanks_append_blank, hdt]

/-- Appending one blank line to an already-collapsed list and collapsing
again gives back the collapsed list. -/
theorem collapse_append_blank_of_collapsed (out : List (List Char)) :
    collapse_blank_lines (collapse_blank_lines out ++ [[]])
      = collapse_blank_lines out :=
  collapse_of_collapsed (noCollapse_collapse out) (dropTrailing_collapse out)

/-! ### Newline normalization, split and join -/

theorem joinNL_one (l : List Char) : joinNL [l] = l := rfl

theorem joinNL_cons₂ (l l₂ : List Char) (ls : List (List Char)) :
    joinNL (l :: l₂ :: ls) = l ++ '\n' :: joinNL (l₂ :: ls) := rfl

theorem splitNL_cons (c : Char) (rest : List Char) :
    splitNL (c :: rest) = if c = '\n' then [] :: splitNL rest
      else match splitNL rest with
        | [] => [[c]]
        | l :: ls => (c :: l) :: ls := rfl

theorem splitNL_ne_nil : ∀ u : List Char, splitNL u ≠ []
  | [] => by simp [splitNL]
  | c :: rest => by
    rw [splitNL_cons]
    by_cases h : c = '\n'
    · rw [if_pos h]; exact List.cons_ne_nil _ _
    · rw [if_neg h]
      cases hs : splitNL rest with
      | nil => exact List.cons_ne_nil _ _
      | cons l ls => exact List.cons_ne_nil _ _

theorem splitNL_mem : ∀ (u l : List Char), l ∈ splitNL u → ∀ c ∈ l, c ∈ u ∧ c ≠ '\n'
  | [], l, hl, c, hc => by
    simp only [splitNL, List.mem_singleton] at hl
    subst hl
    simp at hc
  | a :: rest, l, hl, c, hc => by
    rw [splitNL_cons] at hl
    by_cases h : a = '\n'
    · rw [if_pos h] at hl
      rcases List.mem_cons.mp hl with rfl | hl
      · simp at hc
      · have := splitNL_mem rest l hl c hc
        exact ⟨List.mem_cons_of_mem _ this.1, this.2⟩
    · rw [if_neg h] at hl
      cases hs : splitNL rest with
      | nil => exact absurd hs (splitNL_ne_nil rest)
      | cons m ms =>
        rw [hs] at hl
        rcases List.mem_cons.mp hl with rfl | hl
        · rcases List.mem_cons.mp hc with rfl | hc
          · exact ⟨List.mem_cons_self _ _, h⟩
          · have := splitNL_mem rest m (by rw [hs]; exact List.mem_cons_self _ _) c hc
            exact ⟨List.mem_cons_of_mem _ this.1, this.2⟩
        · have := splitNL_mem rest l
            (by rw [hs]; exact List.mem_cons_of_mem _ hl) c hc
          exact ⟨List.mem_cons_of_mem _ this.1, this.2⟩

theorem splitNL_append_nl : ∀ (l rest : List Char), '\n' ∉ l →
    splitNL (l ++ '\n' :: rest) = l :: splitNL rest
  | [], rest, _ => by
    rw [List.nil_append, splitNL_cons, if_pos rfl]
  | c :: l, rest, h => by
    have hc : c ≠ '\n' :=
      fun hcc => h (by rw [← hcc]; exact List.mem_cons_self _ _)
    rw [List.cons_append, splitNL_cons, if_neg hc,
      splitNL_append_nl l rest (fun hm => h (List.mem_cons_of_mem _ hm))]

theorem splitNL_joinNL : ∀ (r : List Char) (R : List (List Char)),
    '\n' ∉ r → (∀ l ∈ R, '\n' ∉ l) →
    splitNL (joinNL (r :: R) ++ ['\n']) = (r :: R) ++ [[]]
  | r, [], hr, _ => by
    rw [joinNL_one]
    have := splitNL_append_nl r [] hr
    simpa [splitNL] using this
  | r, r₂ :: R, hr, hR => by
    rw [joinNL_cons₂, List.append_assoc, List.cons_append,
      splitNL_append_nl r _ hr,
      splitNL_joinNL r₂ R (hR r₂ (by simp)) (fun l hl => hR l (by simp [hl]))]
    rfl

theorem replaceCRLF_eq_self : ∀ (l : List Char), '\r' ∉ l → replaceCRLF l = l
  | [], _ => rfl
  | [c], _ => rfl
  | c :: d :: rest, h => by
    have hc : c ≠ '\r' :=
      fun hcc => h (by rw [← hcc]; exact List.mem_cons_self _ _)
    show (if c = '\r' ∧ d = '\n' then '\n' :: replaceCRLF rest
      else c :: replaceCRLF (d :: rest)) = c :: d :: rest
    rw [if_neg (fun hand => hc hand.1),
      replaceCRLF_eq_self (d :: rest) (fun hm => h (List.mem_cons_of_mem _ hm))]

theorem replaceCR_eq_self : ∀ (l : List Char), '\r' ∉ l → replaceCR l = l := by
  intro l h
  induction l with
  | nil => rfl
  | cons a l ih =>
    have ha : a ≠ '\r' :=
      fun haa => h (by rw [← haa]; exact List.mem_cons_self _ _)
    unfold replaceCR
    rw [List.map_cons, if_neg ha]
    have := ih (fun hm => h (List.mem_cons_of_mem _ hm))
    unfold replaceCR at this
    rw [this]

theorem normalize_eq_self {u : List Char} (h : '\r' ∉ u) :
    normalize_newlines u = u := by
  unfold normalize_newlines
  rw [replaceCRLF_eq_self u h, replaceCR_eq_self u h]

theorem normalize_no_cr (t : List Char) : '\r' ∉ normalize_newlines t := by
  intro h
  unfold normalize_newlines replaceCR at h
  rw [List.mem_map] at h
  obtain ⟨a, -, ha⟩ := h
  by_cases haa : a = '\r'
  · rw [if_pos haa] at ha
    exact absurd ha (by decide)
  · rw [if_neg haa] at ha
    exact haa ha

theorem joinNL_chars : ∀ (L : List (List Char)) (c : Char),
    c ∈ joinNL L → (∃ l ∈ L, c ∈ l) ∨ c = '\n'
  | [], c, h => by simp [joinNL] at h
  | [l], c, h => Or.inl ⟨l, by simp, h⟩
  | l :: l₂ :: ls, c, h => by
    rw [joinNL_cons₂] at h
    rcases List.mem_append.mp h with h | h
    · exact Or.inl ⟨l, by simp, h⟩
    · rcases List.mem_cons.mp h with rfl | h
      · exact Or.inr rfl
      · rcases joinNL_chars (l₂ :: ls) c h with ⟨m, hm, hcm⟩ | h
        · exact Or.inl ⟨m, List.mem_cons_of_mem _ hm, hcm⟩
        · exact Or.inr h

/-! ### Character provenance of emitted lines -/

theorem processLine_chars (st : FmtState) (l : List Char) :
    ∀ c ∈ (processLine st l).1, c ∈ l ∨ c = ' ' := by
  intro c hc
  by_cases hb : stripPy (rstripST l) = []
  · rw [processLine_blank hb] at hc
    simp at hc
  · by_cases hd : listStartsWith ("#".toList) (stripPy (rstripST l)) = true
    · rw [processLine_directive hb hd] at hc
      exact Or.inl (mem_rstripST (mem_stripPy hc))
    · have hd' := Bool.eq_false_iff.mpr hd
      by_cases hp : st.in_preset = true
      · rw [processLine_preset hb hd' hp] at hc
        exact Or.inl (mem_rstripST (mem_lstripPy hc))
      · have hp' := Bool.eq_false_iff.mpr hp
        rw [processLine_code hb hd' hp'] at hc
        rcases List.mem_append.mp hc with h | h
        · exact Or.inr (mem_strMul_INDENT h)
        · exact Or.inl (mem_rstripST (mem_lstripPy h))

theorem processLines_chars : ∀ (ls : List (List Char)) (st : FmtState),
    ∀ o ∈ (processLines st ls).1, ∀ c ∈ o, (∃ l ∈ ls, c ∈ l) ∨ c = ' '
  | [], st, o, ho, c, hc => by
    rw [processLines_nil] at ho
    simp at ho
  | l :: ls, st, o, ho, c, hc => by
    rw [processLines_cons] at ho
    rcases List.mem_cons.mp ho with rfl | ho
    · rcases processLine_chars st l c hc with h | h
      · exact Or.inl ⟨l, by simp, h⟩
      · exact Or.inr h
    · rcases processLines_chars ls (processLine st l).2 o ho c hc with ⟨m, hm, hcm⟩ | h
      · exact Or.inl ⟨m, List.mem_cons_of_mem _ hm, hcm⟩
      · exact Or.inr h

theorem mem_collapse {o : List Char} {l : List (List Char)}
    (h : o ∈ collapse_blank_lines l) : o ∈ l := by
  have h1 := (delBlanks_dropTrailing (collapseAux true l)).mem o h
  exact (delBlanks_collapseAux true l).mem o h1

/-! ### Idempotence assembly -/

/-- The collapsed output lines are themselves a fixed point of the loop. -/
theorem processLines_outputLines (t : List Char) :
    processLines initState (outputLines t)
      = (outputLines t,
         (processLines initState (splitNL (normalize_newlines t))).2) := by
  have h1 : processLines initState
      (processLines initState (splitNL (normalize_newlines t))).1
      = ((processLines initState (splitNL (normalize_newlines t))).1,
         (processLines initState (splitNL (normalize_newlines t))).2) := by
    rw [processLines_fix]
  have h2 := processLines_delBlanks
    (delBlanks_collapseAux true
      (processLines initState (splitNL (normalize_newlines t))).1)
    initState _ h1
  have h3 := processLines_delBlanks
    (delBlanks_dropTrailing (collapseAux true
      (processLines initState (splitNL (normalize_newlines t))).1))
    initState _ h2
  exact h3

theorem outputLines_no_nl (t : List Char) : ∀ l ∈ outputLines t, '\n' ∉ l := by
  intro l hl hnl
  have hmem : l ∈ (processLines initState (splitNL (normalize_newlines t))).1 :=
    mem_collapse hl
  rcases processLines_chars _ initState l hmem '\n' hnl with ⟨m, hm, hcm⟩ | h
  · exact (splitNL_mem _ m hm '\n' hcm).2 rfl
  · exact absurd h (by decide)

theorem format_no_cr (t : List Char) : '\r' ∉ format_frag_text t := by
  intro h
  have h' : '\r' ∈ joinNL (outputLines t) ++ ['\n'] := h
  rcases List.mem_append.mp h' with h' | h'
  · rcases joinNL_chars _ '\r' h' with ⟨l, hl, hcl⟩ | h''
    · have hmem := mem_collapse hl
      rcases processLines_chars _ initState l hmem '\r' hcl with ⟨m, hm, hcm⟩ | hsp
      · exact normalize_no_cr t (splitNL_mem _ m hm '\r' hcm).1
      · exact absurd hsp (by decide)
    · exact absurd h'' (by decide)
  · rw [List.mem_singleton] at h'
    exact absurd h' (by decide)

theorem format_frag_text_fix (t : List Char) :
    format_frag_text (format_frag_text t) = format_frag_text t := by
  cases hRc : outputLines t with
  | nil =>
    have hfmt : format_frag_text t = ['\n'] := by
      show joinNL (outputLines t) ++ ['\n'] = ['\n']
      rw [hRc]
      rfl
    rw [hfmt]
    decide
  | cons r R' =>
    have hnl := outputLines_no_nl t
    have hfmt : format_frag_text t = joinNL (outputLines t) ++ ['\n'] := rfl
    have step1 : normalize_newlines (format_frag_text t) = format_frag_text t :=
      normalize_eq_self (format_no_cr t)
    have step2 : splitNL (format_frag_text t) = outputLines t ++ [[]] := by
      rw [hfmt, hRc]
      rw [hRc] at hnl
      exact splitNL_joinNL r R' (hnl r (by simp)) (fun l hl => hnl l (by simp [hl]))
    have step3 : processLines initState (outputLines t ++ [[]])
        = (outputLines t ++ [[]],
           (processLines initState (splitNL (normalize_newlines t))).2) := by
      rw [processLines_append, processLines_outputLines]
      rfl
    have step4 : collapse_blank_lines (outputLines t ++ [[]]) = outputLines t :=
      collapse_of_collapsed (noCollapse_collapse _) (dropTrailing_collapse _)
    show joinNL (collapse_blank_lines (processLines initState
      (splitNL (normalize_newlines (format_frag_text t)))).1) ++ ['\n']
        = format_frag_text t
    rw [step1, step2, step3]
    show joinNL (collapse_blank_lines (outputLines t ++ [[]])) ++ ['\n']
      = format_frag_text t
    rw [step4]
    exact hfmt.symm

/-! ### Comment opacity facts for the scanner -/

/-- Whether the two-character sequence closing a block comment occurs in
the line. -/
def hasStarSlash : List Char → Bool
  | [] => false
  | [_] => false
  | a :: b :: rest => if a = '*' ∧ b = '/' then true else hasStarSlash (b :: rest)

theorem scanAux_bc_cons (inStr : Option Char) (esc : Bool) (a b : Char)
    (rest : List Char) :
    scanAux true inStr esc (a :: b :: rest) =
      if a = '*' ∧ b = '/' then scanAux false inStr esc rest
      else scanAux true inStr esc (b :: rest) := by
  simp [scanAux]

theorem scanAux_bc_skips : ∀ (junk : List Char) (inStr : Option Char)
    (esc : Bool), hasStarSlash junk = false →
    scanAux true inStr esc junk = ([], true)
  | [], _, _, _ => rfl
  | [c], _, _, _ => rfl
  | a :: b :: rest, inStr, esc, h => by
    have heq : hasStarSlash (a :: b :: rest)
        = if a = '*' ∧ b = '/' then true else hasStarSlash (b :: rest) := rfl
    by_cases hab : a = '*' ∧ b = '/'
    · rw [heq, if_pos hab] at h
      exact Bool.noConfusion h
    · rw [heq, if_neg hab] at h
      rw [scanAux_bc_cons, if_neg hab]
      exact scanAux_bc_skips (b :: rest) inStr esc h

/-- A line scanned entirely inside a block comment (no closing `*/`)
contributes nothing and the state stays inside the comment. -/
theorem strip_comments_bc_skips (junk : List Char)
    (h : hasStarSlash junk = false) :
    strip_comments_for_braces junk true = ([], true) :=
  scanAux_bc_skips junk none false h

theorem scanAux_line_comment (suf : List Char) (esc : Bool) :
    scanAux false none esc ('/' :: '/' :: suf) = ([], false) := rfl

/-- The in-string transition of the scanner on one character. -/
def strNext (q : Char) (esc : Bool) (c : Char) : Option Char × Bool :=
  if esc then (some q, false)
  else if c = '\\' then (some q, true)
  else if c = q then (none, false)
  else (some q, false)

/-- The scanner with its full end-of-line sub-state (`none` = the line was
terminated by an unquoted `//`). -/
def scanFull : Bool → Option Char → Bool → List Char →
    List Char × Option (Bool × Option Char × Bool)
  | inBC, inStr, esc, [] => ([], some (inBC, inStr, esc))
  | inBC, inStr, esc, [c] =>
    if inBC then ([], some (true, inStr, esc))
    else
      match inStr with
      | some q => ([c], some (false, (strNext q esc c).1, (strNext q esc c).2))
      | none =>
        if c = '\x27' ∨ c = '\x22' then ([c], some (false, some c, esc))
        else ([c], some (false, none, esc))
  | inBC, inStr, esc, c :: nxt :: rest =>
    if inBC then
      if c = '*' ∧ nxt = '/' then scanFull false inStr esc rest
      else scanFull true inStr esc (nxt :: rest)
    else
      match inStr with
      | some q =>
        let p := scanFull false (strNext q esc c).1 (strNext q esc c).2 (nxt :: rest)
        (c :: p.1, p.2)
      | none =>
        if c = '\x27' ∨ c = '\x22' then
          let p := scanFull false (some c) esc (nxt :: rest)
          (c :: p.1, p.2)
        else if c = '/' ∧ nxt = '/' then ([], none)
        else if c = '/' ∧ nxt = '*' then scanFull true none esc rest
        else
          let p := scanFull false none esc (nxt :: rest)
          (c :: p.1, p.2)

theorem scanAux_bc_close (inStr : Option Char) (esc : Bool) (rest : List Char) :
    scanAux true inStr esc ('*' :: '/' :: rest) = scanAux false inStr esc rest := by
  simp [scanAux]

theorem scanAux_bc_skip {c nxt : Char} (h : ¬(c = '*' ∧ nxt = '/'))
    (inStr : Option Char) (esc : Bool) (rest : List Char) :
    scanAux true inStr esc (c :: nxt :: rest) = scanAux true inStr esc (nxt :: rest) := by
  rw [scanAux_bc_cons, if_neg h]

theorem scanAux_enter_bc (esc : Bool) (rest : List Char) :
    scanAux false none esc ('/' :: '*' :: rest) = scanAux true none esc rest := by
  simp [scanAux]

theorem scanAux_quote_step {c : Char} (h : c = '\x27' ∨ c = '\x22')
    (esc : Bool) (nxt : Char) (rest : List Char) :
    scanAux false none esc (c :: nxt :: rest)
      = (c :: (scanAux false (some c) esc (nxt :: rest)).1,
         (scanAux false (some c) esc (nxt :: rest)).2) := by
  simp only [scanAux]
  rw [if_neg (by simp), if_pos h]

theorem scanAux_plain_step {c nxt : Char} (h1 : ¬(c = '\x27' ∨ c = '\x22'))
    (h2 : ¬(c = '/' ∧ nxt = '/')) (h3 : ¬(c = '/' ∧ nxt = '*'))
    (esc : Bool) (rest : List Char) :
    scanAux false none esc (c :: nxt :: rest)
      = (c :: (scanAux false none esc (nxt :: rest)).1,
         (scanAux false none esc (nxt :: rest)).2) := by
  simp only [scanAux]
  rw [if_neg (by simp), if_neg h1, if_neg h2, if_neg h3]

theorem scanAux_str_step (q : Char) (esc : Bool) (c nxt : Char) (rest : List Char) :
    scanAux false (some q) esc (c :: nxt :: rest)
      = (c :: (scanAux false (strNext q esc c).1 (strNext q esc c).2 (nxt :: rest)).1,
         (scanAux false (strNext q esc c).1 (strNext q esc c).2 (nxt :: rest)).2) := by
  cases esc with
  | true => simp [scanAux, strNext]
  | false =>
    by_cases hbs : c = '\\'
    · simp [scanAux, strNext, hbs]
    · by_cases hq : c = q
      · subst hq
        simp [scanAux, strNext, hbs]
      · simp [scanAux, strNext, hbs, hq]

theorem scanAux_single (inBC : Bool) (inStr : Option Char) (esc : Bool) (c : Char) :
    scanAux inBC inStr esc [c] = if inBC then ([], true) else ([c], false) := rfl

/-! #### Step equations for `scanFull` -/

theorem scanFull_code_single (esc : Bool) (c : Char) :
    scanFull false none esc [c]
      = if c = '\x27' ∨ c = '\x22' then ([c], some (false, some c, esc))
        else ([c], some (false, none, esc)) := rfl

theorem scanFull_bc_close (inStr : Option Char) (esc : Bool) (rest : List Char) :
    scanFull true inStr esc ('*' :: '/' :: rest) = scanFull false inStr esc rest := by
  simp [scanFull]

theorem scanFull_bc_skip {c nxt : Char} (h : ¬(c = '*' ∧ nxt = '/'))
    (inStr : Option Char) (esc : Bool) (rest : List Char) :
    scanFull true inStr esc (c :: nxt :: rest) = scanFull true inStr esc (nxt :: rest) := by
  simp only [scanFull]
  rw [if_pos trivial, if_neg h]

theorem scanFull_enter_bc (esc : Bool) (rest : List Char) :
    scanFull false none esc ('/' :: '*' :: rest) = scanFull true none esc rest := by
  simp [scanFull]

theorem scanFull_break (esc : Bool) (rest : List Char) :
    scanFull false none esc ('/' :: '/' :: rest) = ([], none) := by
  simp [scanFull]

theorem scanFull_quote_step {c : Char} (h : c = '\x27' ∨ c = '\x22')
    (esc : Bool) (nxt : Char) (rest : List Char) :
    scanFull false none esc (c :: nxt :: rest)
      = (c :: (scanFull false (some c) esc (nxt :: rest)).1,
         (scanFull false (some c) esc (nxt :: rest)).2) := by
  simp only [scanFull]
  rw [if_neg (by simp), if_pos h]

theorem scanFull_plain_step {c nxt : Char} (h1 : ¬(c = '\x27' ∨ c = '\x22'))
    (h2 : ¬(c = '/' ∧ nxt = '/')) (h3 : ¬(c = '/' ∧ nxt = '*'))
    (esc : Bool) (rest : List Char) :
    scanFull false none esc (c :: nxt :: rest)
      = (c :: (scanFull false none esc (nxt :: rest)).1,
         (scanFull false none esc (nxt :: rest)).2) := by
  simp only [scanFull]
  rw [if_neg (by simp), if_neg h1, if_neg h2, if_neg h3]

theorem scanFull_str_step (q : Char) (esc : Bool) (c nxt : Char) (rest : List Char) :
    scanFull false (some q) esc (c :: nxt :: rest)
      = (c :: (scanFull false (strNext q esc c).1 (strNext q esc c).2 (nxt :: rest)).1,
         (scanFull false (strNext q esc c).1 (strNext q esc c).2 (nxt :: rest)).2) := by
  simp only [scanFull]
  rw [if_neg (by simp)]

/-- `scanFull` is the same scan as `strip_comments_for_braces`'s loop: the
projection agrees, and the returned block-comment flag is the state's
flag (or `false` after a `//` break). -/
theorem scanAux_eq_scanFull : ∀ (l : List Char) (inBC : Bool)
    (inStr : Option Char) (esc : Bool),
    scanAux inBC inStr esc l
      = ((scanFull inBC inStr esc l).1,
         match (scanFull inBC inStr esc l).2 with
         | none => false
         | some s => s.1)
  | [], inBC, inStr, esc => rfl
  | [c], inBC, inStr, esc => by
    cases inBC with
    | true => rfl
    | false =>
      cases inStr with
      | some q => rfl
      | none =>
        rw [scanAux_single, scanFull_code_single]
        by_cases h : c = '\x27' ∨ c = '\x22'
        · rw [if_pos h]; rfl
        · rw [if_neg h]; rfl
  | c :: nxt :: rest, inBC, inStr, esc => by
    cases inBC with
    | true =>
      by_cases hcd : c = '*' ∧ nxt = '/'
      · obtain ⟨rfl, rfl⟩ := hcd
        rw [scanAux_bc_close, scanFull_bc_close]
        exact scanAux_eq_scanFull rest false inStr esc
      · rw [scanAux_bc_skip hcd, scanFull_bc_skip hcd]
        exact scanAux_eq_scanFull (nxt :: rest) true inStr esc
    | false =>
      cases inStr with
      | some q =>
        rw [scanAux_str_step, scanFull_str_step,
          scanAux_eq_scanFull (nxt :: rest) false (strNext q esc c).1 (strNext q esc c).2]
      | none =>
        by_cases hq : c = '\x27' ∨ c = '\x22'
        · rw [scanAux_quote_step hq, scanFull_quote_step hq,
            scanAux_eq_scanFull (nxt :: rest) false (some c) esc]
        · by_cases h2 : c = '/' ∧ nxt = '/'
          · obtain ⟨rfl, rfl⟩ := h2
            rw [scanAux_line_comment, scanFull_break]
          · by_cases h3 : c = '/' ∧ nxt = '*'
            · obtain ⟨rfl, rfl⟩ := h3
              rw [scanAux_enter_bc, scanFull_enter_bc]
              exact scanAux_eq_scanFull rest true none esc
            · rw [scanAux_plain_step hq h2 h3, scanFull_plain_step hq h2 h3,
                scanAux_eq_scanFull (nxt :: rest) false none esc]

/-- The first line, if any, is not blank. -/
def noLeadingBlank : List (List Char) → Bool
  | [] => true
  | x :: _ => !x.isEmpty

/-- The last line, if any, is not blank. -/
def noTrailingBlank (l : List (List Char)) : Bool :=
  match l.getLast? with
  | none => true
  | some x => !x.isEmpty

/-- No blank line is immediately followed by another blank line. -/
def noDoubleBlank : List (List Char) → Bool
  | [] :: [] :: _ => false
  | _ :: rest => noDoubleBlank rest
  | [] => true

theorem noCollapse_cons (b : Bool) (x : List Char) (xs : List (List Char)) :
    noCollapse b (x :: xs) = ((!(x.isEmpty && b)) && noCollapse x.isEmpty xs) := rfl

theorem noDoubleBlank_cons_ne {x : List Char} (hx : x ≠ [])
    (rest : List (List Char)) : noDoubleBlank (x :: rest) = noDoubleBlank rest := by
  cases x with
  | nil => exact absurd rfl hx
  | cons a t =>
    cases rest with
    | nil => rfl
    | cons y ys => rfl

theorem noDoubleBlank_blank_cons_ne {y : List Char} (hy : y ≠ [])
    (rest : List (List Char)) :
    noDoubleBlank ([] :: y :: rest) = noDoubleBlank (y :: rest) := by
  cases y with
  | nil => exact absurd rfl hy
  | cons a t => rfl

theorem noDoubleBlank_of_noCollapse : ∀ (b : Bool) (l : List (List Char)),
    noCollapse b l = true → noDoubleBlank l = true
  | _, [], _ => rfl
  | b, [x], _ => by
    cases x with
    | nil => rfl
    | cons a t => rfl
  | b, x :: y :: rest, h => by
    rw [noCollapse_cons, Bool.and_eq_true] at h
    obtain ⟨-, h2⟩ := h
    by_cases hx : x = []
    · subst hx
      have hy : y ≠ [] := by
        intro hy
        subst hy
        rw [noCollapse_cons] at h2
        simp at h2
      rw [noDoubleBlank_blank_cons_ne hy]
      exact noDoubleBlank_of_noCollapse _ (y :: rest) h2
    · rw [noDoubleBlank_cons_ne hx]
      exact noDoubleBlank_of_noCollapse _ (y :: rest) h2

theorem noLeadingBlank_of_noCollapse (l : List (List Char))
    (h : noCollapse true l = true) : noLeadingBlank l = true := by
  cases l with
  | nil => rfl
  | cons x xs =>
    rw [noCollapse_cons, Bool.and_eq_true] at h
    obtain ⟨h1, -⟩ := h
    show (!x.isEmpty) = true
    simpa using h1

theorem noTrailingBlank_dropTrailing (l : List (List Char)) :
    noTrailingBlank (dropTrailingBlanks l) = true := by
  unfold noTrailingBlank dropTrailingBlanks
  rw [List.getLast?_reverse]
  cases hd : l.reverse.dropWhile List.isEmpty with
  | nil => rfl
  | cons a t =>
    have := dropWhile_head_false hd
    simp [this]

/-! ### Level invariant -/

theorem processLine_indent_nonneg (st : FmtState) (l : List Char)
    (h : 0 ≤ st.indent_level) : 0 ≤ (processLine st l).2.indent_level := by
  by_cases hb : stripPy (rstripST l) = []
  · rw [processLine_blank hb]; exact h
  · by_cases hd : listStartsWith ("#".toList) (stripPy (rstripST l)) = true
    · rw [processLine_directive hb hd]; exact h
    · have hd' := Bool.eq_false_iff.mpr hd
      by_cases hp : st.in_preset = true
      · rw [processLine_preset hb hd' hp]; exact h
      · have hp' := Bool.eq_false_iff.mpr hp
        rw [processLine_code hb hd' hp']
        exact le_max_right _ _

theorem processLines_indent_nonneg : ∀ (ls : List (List Char)) (st : FmtState),
    0 ≤ st.indent_level → 0 ≤ (processLines st ls).2.indent_level
  | [], _, h => h
  | l :: ls, st, h =>
    processLines_indent_nonneg ls (processLine st l).2
      (processLine_indent_nonneg st l h)

/-! ### Whitespace-only inputs -/

theorem mem_replaceCRLF : ∀ (l : List Char) (c : Char),
    c ∈ replaceCRLF l → c ∈ l ∨ c = '\n'
  | [], c, h => by simp [replaceCRLF] at h
  | [d], c, h => by
    simp only [replaceCRLF, List.mem_singleton] at h
    exact Or.inl (by simp [h])
  | a :: b :: rest, c, h => by
    by_cases hab : a = '\r' ∧ b = '\n'
    · rw [show replaceCRLF (a :: b :: rest) = '\n' :: replaceCRLF rest from by
        show (if a = '\r' ∧ b = '\n' then '\n' :: replaceCRLF rest
          else a :: replaceCRLF (b :: rest)) = _
        rw [if_pos hab]] at h
      rcases List.mem_cons.mp h with rfl | h
      · exact Or.inr rfl
      · rcases mem_replaceCRLF rest c h with h | h
        · exact Or.inl (by simp [h])
        · exact Or.inr h
    · rw [show replaceCRLF (a :: b :: rest) = a :: replaceCRLF (b :: rest) from by
        show (if a = '\r' ∧ b = '\n' then '\n' :: replaceCRLF rest
          else a :: replaceCRLF (b :: rest)) = _
        rw [if_neg hab]] at h
      rcases List.mem_cons.mp h with rfl | h
      · exact Or.inl (by simp)
      · rcases mem_replaceCRLF (b :: rest) c h with h | h
        · exact Or.inl (List.mem_cons_of_mem _ h)
        · exact Or.inr h

theorem mem_normalize (t : List Char) (c : Char)
    (h : c ∈ normalize_newlines t) : c ∈ t ∨ c = '\n' := by
  unfold normalize_newlines replaceCR at h
  rw [List.mem_map] at h
  obtain ⟨a, ha, hca⟩ := h
  by_cases haa : a = '\r'
  · rw [if_pos haa] at hca
    exact Or.inr hca.symm
  · rw [if_neg haa] at hca
    subst hca
    exact mem_replaceCRLF t a ha

theorem dropWhile_eq_nil_of_all {p : α → Bool} {l : List α}
    (h : ∀ c ∈ l, p c = true) : l.dropWhile p = [] := by
  induction l with
  | nil => rfl
  | cons a l ih =>
    rw [List.dropWhile_cons, if_pos (h a (by simp))]
    exact ih (fun c hc => h c (by simp [hc]))

theorem processLine_ws_blank (st : FmtState) (l : List Char)
    (h : ∀ c ∈ l, isPyWS c = true) : processLine st l = ([], st) := by
  apply processLine_blank
  have : lstripPy (rstripST l) = [] :=
    dropWhile_eq_nil_of_all (fun c hc => h c (mem_rstripST hc))
  unfold stripPy
  rw [this]
  rfl

theorem processLines_ws : ∀ (ls : List (List Char)) (st : FmtState),
    (∀ l ∈ ls, ∀ c ∈ l, isPyWS c = true) →
    processLines st ls = (List.replicate ls.length [], st)
  | [], _, _ => rfl
  | l :: ls, st, h => by
    rw [processLines_cons, processLine_ws_blank st l (h l (by simp)),
      processLines_ws ls st (fun m hm => h m (by simp [hm]))]
    rfl

theorem collapseAux_true_all_blank : ∀ (l : List (List Char)),
    (∀ x ∈ l, x = ([] : List Char)) → collapseAux true l = []
  | [], _ => rfl
  | x :: xs, h => by
    have hx := h x (by simp)
    subst hx
    rw [collapseAux_cons_blank_true]
    exact collapseAux_true_all_blank xs (fun y hy => h y (by simp [hy]))

theorem listStartsWith_ne_nil {p : Char} {ps s : List Char}
    (h : listStartsWith (p :: ps) s = true) : s ≠ [] := by
  intro hs
  subst hs
  exact Bool.noConfusion h

/-! ### Claim theorems -/

/-- C1: for every input text `T`, `format(format(T)) = format(T)` — the
full formatting function (newline normalization, per-line re-indentation,
blank-line collapse, join with a single trailing newline) is idempotent. -/
theorem c1_format_idempotent : ∀ T : List Char,
    format_frag_text (format_frag_text T) = format_frag_text T :=
  format_frag_text_fix

/-- C2: the concrete scenario: `"a{\nb\n}\nc\n\n\nd\n"` formats to
`"a{\n  b\n}\nc\n\nd\n"` — `b` indented one level, `}` and `c` back at
level 0, the triple blank run collapsed to one blank line, single trailing
newline. -/
theorem c2_concrete_scenario :
    format_frag_text ("a\x7b\nb\n\x7d\nc\n\n\nd\n".toList)
      = ("a\x7b\n  b\n\x7d\nc\n\nd\n".toList) := by decide

/-- C4 counterexample: an unterminated string does NOT carry to the next
line.  After scanning `"abc` the scanner returns only the block-comment
flag `false`; scanning the next line `// {` from that state treats it as a
line comment (empty projection), not as string content — had the string
state carried, the projection would have been the whole line, as the
in-string scan shows. -/
theorem c4_counterexample :
    strip_comments_for_braces ("\x22abc".toList) false
      = ("\x22abc".toList, false) ∧
    strip_comments_for_braces ("// \x7b".toList) false = ([], false) ∧
    scanAux false (some '\x22') false ("// \x7b".toList)
      = ("// \x7b".toList, false) ∧
    format_frag_text ("\x22abc\n// \x7b\nx\n".toList)
      = ("\x22abc\n// \x7b\nx\n".toList) := by
  refine ⟨by decide, by decide, by decide, by decide⟩

/-- C4 amended: only the block-comment flag carries across lines: a line
inside an unterminated block comment is consumed silently with the flag
still `true`, while an unterminated string is accepted silently but its
string state is discarded at end of line — the next line is scanned from
plain-code state. -/
theorem c4_amended :
    (∀ junk : List Char, hasStarSlash junk = false →
      strip_comments_for_braces junk true = ([], true)) ∧
    strip_comments_for_braces ("\x22abc".toList) false
      = ("\x22abc".toList, false) ∧
    strip_comments_for_braces ("// \x7b".toList) false = ([], false) :=
  ⟨fun junk h => strip_comments_bc_skips junk h, by decide, by decide⟩

/-- Witness for C4 amended: a concrete unterminated-block-comment line. -/
theorem c4_amended_witness :
    hasStarSlash ("x \x7b".toList) = false ∧
    strip_comments_for_braces ("x \x7b".toList) true = ([], true) :=
  ⟨by decide, c4_amended.1 ("x \x7b".toList) (by decide)⟩

/-- C5 counterexample: a preset-block line is emitted with its LEADING
whitespace stripped, not preserved: `"  leaf{"` inside `#preset`/
`#endpreset` comes out as `"leaf{"` (the `{` still does not indent the
`y` after `#endpreset`). -/
theorem c5_counterexample :
    format_frag_text ("#preset p\n  leaf\x7b\n#endpreset\ny\n".toList)
      = ("#preset p\nleaf\x7b\n#endpreset\ny\n".toList) := by decide

/-- C5 amended: a non-blank, non-directive line inside a preset block is
emitted with trailing space/tab trimmed AND leading whitespace stripped,
and the loop state (indent level, preset flag, block-comment flag) is
unchanged — so braces inside the preset block never alter the indentation
of lines after `#endpreset`. -/
theorem c5_amended : ∀ (st : FmtState) (l : List Char),
    st.in_preset = true →
    stripPy (rstripST l) ≠ [] →
    listStartsWith ("#".toList) (stripPy (rstripST l)) = false →
    processLine st l = (lstripPy (rstripST l), st) :=
  fun _ _ hp h hd => processLine_preset h hd hp

/-- Witness for C5 amended: the line `"  x{ "` inside a preset block is
emitted as `"x{"` with the state unchanged. -/
theorem c5_amended_witness :
    (⟨0, true, false⟩ : FmtState).in_preset = true ∧
    stripPy (rstripST ("  x\x7b ".toList)) ≠ [] ∧
    listStartsWith ("#".toList) (stripPy (rstripST ("  x\x7b ".toList))) = false ∧
    processLine ⟨0, true, false⟩ ("  x\x7b ".toList)
      = ("x\x7b".toList, ⟨0, true, false⟩) := by
  refine ⟨rfl, by decide, by decide, ?_⟩
  have h := c5_amended ⟨0, true, false⟩ ("  x\x7b ".toList) rfl (by decide) (by decide)
  rw [h]
  decide

/-- C6: for every input the collapsed output line list has no leading
blank line, no two consecutive blank lines and no trailing blank line, and
the output text is exactly those lines joined with `\n` plus one trailing
newline; concretely, three blank lines between two statements collapse to
one. -/
theorem c6_blank_collapse :
    (∀ t : List Char,
      noLeadingBlank (outputLines t) = true ∧
      noDoubleBlank (outputLines t) = true ∧
      noTrailingBlank (outputLines t) = true ∧
      format_frag_text t = joinNL (outputLines t) ++ ['\n']) ∧
    format_frag_text ("x\n\n\n\ny\n".toList) = ("x\n\ny\n".toList) := by
  refine ⟨fun t => ⟨?_, ?_, ?_, rfl⟩, by decide⟩
  · exact noLeadingBlank_of_noCollapse _ (noCollapse_collapse _)
  · exact noDoubleBlank_of_noCollapse true _ (noCollapse_collapse _)
  · exact noTrailingBlank_dropTrailing _

/-- C7: the indentation level starts at 0 and, every update being clamped
with `max _ 0`, the state after any prefix of the line loop of a
formatting run has a non-negative indentation level. -/
theorem c7_level_nonneg :
    initState.indent_level = 0 ∧
    ∀ (t : List Char) (i : Nat),
      0 ≤ (processLines initState
        ((splitNL (normalize_newlines t)).take i)).2.indent_level :=
  ⟨rfl, fun t i =>
    processLines_indent_nonneg ((splitNL (normalize_newlines t)).take i)
      initState (le_refl 0)⟩

/-- C8: `format_frag_text` is a total function: on every input (mismatched
braces, unterminated string or comment, stray `#endpreset`) it returns a
non-empty string ending in exactly the appended `\n`. -/
theorem c8_totality :
    (∀ t : List Char, format_frag_text t ≠ [] ∧
      (format_frag_text t).getLast? = some '\n') ∧
    format_frag_text ("\x7d\x7d\x7d\n".toList) = ("\x7d\x7d\x7d\n".toList) ∧
    format_frag_text ("\x22open\n".toList) = ("\x22open\n".toList) ∧
    format_frag_text ("/*\n".toList) = ("/*\n".toList) ∧
    format_frag_text ("#endpreset\n".toList) = ("#endpreset\n".toList) := by
  refine ⟨fun t => ⟨?_, ?_⟩, by decide, by decide, by decide, by decide⟩
  · show joinNL (outputLines t) ++ ['\n'] ≠ []
    simp
  · show (joinNL (outputLines t) ++ ['\n']).getLast? = some '\n'
    rw [getLast?_append_right (by simp)]
    rfl

/-- C9: a line whose stripped form starts with `#` is handled by the
directive branch for EVERY incoming state — also when the carried
block-comment flag is `true`: it is emitted stripped, the preset flag is
updated by the directive rule, and the indent level and block-comment flag
pass through unchanged (the scanner is not invoked). -/
theorem c9_directive_in_block_comment : ∀ (st : FmtState) (l : List Char),
    listStartsWith ("#".toList) (stripPy (rstripST l)) = true →
    processLine st l = (stripPy (rstripST l),
      ⟨st.indent_level, presetUpd (stripPy (rstripST l)) st.in_preset,
        st.in_block_comment⟩) ∧
    (processLine st l).2.in_block_comment = st.in_block_comment := by
  intro st l hd
  have hne : stripPy (rstripST l) ≠ [] := listStartsWith_ne_nil hd
  refine ⟨processLine_directive hne hd, ?_⟩
  rw [processLine_directive hne hd]

/-- Witness for C9: `#PreSet foo` inside an open block comment (flag
`true`) is emitted stripped, turns preset mode on, and leaves the
block-comment flag `true` and the level at 2. -/
theorem c9_witness :
    listStartsWith ("#".toList)
      (stripPy (rstripST ("  #PreSet foo".toList))) = true ∧
    processLine ⟨2, false, true⟩ ("  #PreSet foo".toList)
      = ("#PreSet foo".toList, ⟨2, true, true⟩) := by
  refine ⟨by decide, ?_⟩
  have h := (c9_directive_in_block_comment ⟨2, false, true⟩
    ("  #PreSet foo".toList) (by decide)).1
  rw [h]
  decide

/-- C10: for the empty input and for every input made only of whitespace
characters, `format_frag_text` returns exactly the one-character string
`"\n"`. -/
theorem c10_whitespace_only : ∀ t : List Char,
    (∀ c ∈ t, isPyWS c = true) → format_frag_text t = ['\n'] := by
  intro t h
  have hn : ∀ l ∈ splitNL (normalize_newlines t), ∀ c ∈ l, isPyWS c = true := by
    intro l hl c hc
    have hm := (splitNL_mem _ l hl c hc).1
    rcases mem_normalize t c hm with h' | h'
    · exact h c h'
    · rw [h']; decide
  have hout : outputLines t = [] := by
    show collapse_blank_lines
      (processLines initState (splitNL (normalize_newlines t))).1 = []
    rw [processLines_ws (splitNL (normalize_newlines t)) initState hn]
    show dropTrailingBlanks (collapseAux true
      (List.replicate (splitNL (normalize_newlines t)).length [])) = []
    rw [collapseAux_true_all_blank _ (fun x hx => List.eq_of_mem_replicate hx)]
    rfl
  show joinNL (outputLines t) ++ ['\n'] = ['\n']
  rw [hout]
  rfl

/-- Witness for C10: the empty input and a concrete whitespace-only input
both format to `"\n"`. -/
theorem c10_witness :
    (∀ c ∈ ("  \t\n\n ".toList), isPyWS c = true) ∧
    format_frag_text ("  \t\n\n ".toList) = ['\n'] ∧
    format_frag_text [] = ['\n'] :=
  ⟨by decide, c10_whitespace_only ("  \t\n\n ".toList) (by decide),
   c10_whitespace_only [] (by intro c hc; simp at hc)⟩

end Beautify
